import Mathlib

/-!
Shallow embedding of the transactional key-value store
(`src/Розробка_вбудованого_key_value_сховища_з_підтримкою_транзакцій_та.rs`).

The Rust store keeps, per key, a `BTreeMap<Nat, Option<String>>` of
committed entries (`None` is a tombstone), plus two counters:
`next_version` (the next version to allocate) and `active_version`
(the version visible to newly begun transactions).  Transactions carry a
snapshot version, a local write buffer, and an `aborted` flag.

BTreeMaps are modelled as association lists maintained by an ordered
insert-or-replace (`btInsert`), which is exactly the observable behaviour
of `BTreeMap::insert`; `BTreeMap::get` is `lookupKey`.  Mutation through
`&mut self` / interior mutability becomes explicit state passing: `commit`
returns the Rust `Result` value together with the updated store, `put`,
`delete` and `rollback` return it with the updated transaction.
-/

namespace KVS

/-- The single error kind of the store (`enum KVError`). -/
inductive KVError where
  | TransactionAborted
deriving DecidableEq, Repr

/-- Exact-key lookup in an association list; models `BTreeMap::get`. -/
def lookupKey {α β : Type} [DecidableEq α] (k : α) : List (α × β) → Option β
  | [] => none
  | (k₀, v₀) :: rest => if k₀ = k then some v₀ else lookupKey k rest

/-- Ordered insert-or-replace into an association list; models
`BTreeMap::insert` (which overwrites the entry when the key is present). -/
def btInsert {α β : Type} [LinearOrder α] (k : α) (v : β) : List (α × β) → List (α × β)
  | [] => [(k, v)]
  | (k₀, v₀) :: rest =>
    if k < k₀ then (k, v) :: (k₀, v₀) :: rest
    else if k = k₀ then (k, v) :: rest
    else (k₀, v₀) :: btInsert k v rest

/-- The store (`struct KVStore`): per-key version histories (`data`) and the
two version counters. -/
structure KVStore where
  data : List (String × List (Nat × Option String))
  next_version : Nat
  active_version : Nat
deriving DecidableEq, Repr

/-- `KVStore::new`: empty data, `next_version = 1`, `active_version = 0`. -/
def KVStore.new : KVStore :=
  { data := [], next_version := 1, active_version := 0 }

/-- `KVStore::read_at`: among the versions recorded for `key`, scan the
history from the largest version down (`versions.iter().rev()`) for the
first entry with version `≤ version` and return its stored `Option<String>`
(`None` both when that entry is a tombstone and when there is no such
entry or no history at all).  A pure function of the store. -/
def KVStore.read_at (s : KVStore) (key : String) (version : Nat) : Option String :=
  match lookupKey key s.data with
  | none => none
  | some versions =>
    match versions.reverse.find? (fun p => p.1 ≤ version) with
    | some p => p.2
    | none => none

/-- A transaction handle (`struct Transaction`); the `Arc<KVStore>` field is
replaced by passing the store explicitly to `get` and `commit`. -/
structure Transaction where
  snapshot_version : Nat
  writes : List (String × Option String)
  aborted : Bool
deriving DecidableEq, Repr

/-- `KVStore::begin`: capture the current `active_version` as the snapshot,
empty buffer, not aborted. -/
def KVStore.begin (s : KVStore) : Transaction :=
  { snapshot_version := s.active_version, writes := [], aborted := false }

/-- `Transaction::get`: fail when aborted; otherwise serve from the local
write buffer when the key is buffered, else from the store at the
snapshot version. -/
def Transaction.get (t : Transaction) (s : KVStore) (key : String) :
    Except KVError (Option String) :=
  if t.aborted then Except.error KVError.TransactionAborted
  else
    match lookupKey key t.writes with
    | some val => Except.ok val
    | none => Except.ok (s.read_at key t.snapshot_version)

/-- `Transaction::put`: fail when aborted; otherwise buffer `key -> Some value`. -/
def Transaction.put (t : Transaction) (key value : String) :
    Except KVError Unit × Transaction :=
  if t.aborted then (Except.error KVError.TransactionAborted, t)
  else (Except.ok (), { t with writes := btInsert key (some value) t.writes })

/-- `Transaction::delete`: fail when aborted; otherwise buffer a tombstone. -/
def Transaction.delete (t : Transaction) (key : String) :
    Except KVError Unit × Transaction :=
  if t.aborted then (Except.error KVError.TransactionAborted, t)
  else (Except.ok (), { t with writes := btInsert key none t.writes })

/-- The commit loop over the buffer:
`for (key, value_opt) in self.writes { data.entry(key).or_default().insert(new_version, value_opt) }`. -/
def applyWrites (nv : Nat) (ws : List (String × Option String))
    (d : List (String × List (Nat × Option String))) :
    List (String × List (Nat × Option String)) :=
  ws.foldl (fun acc kv => btInsert kv.1 (btInsert nv kv.2 ((lookupKey kv.1 acc).getD [])) acc) d

/-- `Transaction::commit`: `Ok(())` with no store change when aborted or the
buffer is empty; otherwise allocate `new_version = next_version` (the value
returned by `fetch_add(1)`), record every buffered write under it, and
publish `active_version = new_version`. -/
def Transaction.commit (t : Transaction) (s : KVStore) :
    Except KVError Unit × KVStore :=
  if t.aborted || t.writes.isEmpty then (Except.ok (), s)
  else
    (Except.ok (),
      { data := applyWrites s.next_version t.writes s.data,
        next_version := s.next_version + 1,
        active_version := s.next_version })

/-- `Transaction::rollback`: clear the buffer, set `aborted`, return `Ok(())`. -/
def Transaction.rollback (t : Transaction) : Except KVError Unit × Transaction :=
  (Except.ok (), { t with writes := [], aborted := true })

/-- Store states reachable from a given state by commits.  `commit` is the
only operation of the API that changes the store (`begin`, `get`, `put`,
`delete` and `rollback` leave it untouched by construction), so this step
relation covers every store evolution, for arbitrary committing
transactions. -/
inductive CommitSteps : KVStore → KVStore → Prop where
  | refl (s : KVStore) : CommitSteps s s
  | step (t : Transaction) {s s₁ : KVStore} :
      CommitSteps s s₁ → CommitSteps s (t.commit s₁).2

/-- Store states reachable from `KVStore::new` by any sequence of API calls
(only commits matter for the store, for arbitrary transactions). -/
inductive ReachableStore : KVStore → Prop where
  | new : ReachableStore KVStore.new
  | commit (t : Transaction) {s : KVStore} :
      ReachableStore s → ReachableStore (t.commit s).2

/-- Run a list of transactions through `commit` in order, collecting the
version numbers consumed (a version is allocated exactly when the commit
passes the aborted/empty guard, as in the source). -/
def runCommits : KVStore → List Transaction → KVStore × List Nat
  | s, [] => (s, [])
  | s, t :: ts =>
    if t.aborted || t.writes.isEmpty then runCommits (t.commit s).2 ts
    else ((runCommits (t.commit s).2 ts).1,
      s.next_version :: (runCommits (t.commit s).2 ts).2)

/-- The successive store states produced by a list of commits. -/
def commitTrace : KVStore → List Transaction → List KVStore
  | _, [] => []
  | s, t :: ts => (t.commit s).2 :: commitTrace (t.commit s).2 ts

/-- Strict order on history entries by version. -/
abbrev VLt (p q : Nat × Option String) : Prop := p.1 < q.1

/-- The last entry of a history with version `≤ V`; on a version-sorted
history this is the entry at the greatest version `≤ V`. -/
def lastLE (h : List (Nat × Option String)) (V : Nat) :
    Option (Nat × Option String) :=
  match h with
  | [] => none
  | p :: rest =>
    match lastLE rest V with
    | some q => some q
    | none => if p.1 ≤ V then some p else none

/-- The entry `read_at` resolves to, at the data-map level. -/
def histRead (d : List (String × List (Nat × Option String)))
    (k : String) (V : Nat) : Option (Nat × Option String) :=
  match lookupKey k d with
  | none => none
  | some h => lastLE h V

/-- Well-formedness of a store: the visible version is strictly below the
next version to allocate, and every per-key history is strictly sorted by
version with all versions at most the visible version. -/
def StoreWF (s : KVStore) : Prop :=
  s.active_version < s.next_version ∧
  ∀ k h, lookupKey k s.data = some h →
    List.Pairwise VLt h ∧ ∀ p ∈ h, p.1 ≤ s.active_version

/-! ### Unfolding equations -/

theorem lookupKey_nil {α β : Type} [DecidableEq α] (k : α) :
    lookupKey (β := β) k [] = none := rfl

theorem lookupKey_cons {α β : Type} [DecidableEq α] (k k₀ : α) (v₀ : β)
    (rest : List (α × β)) :
    lookupKey k ((k₀, v₀) :: rest) = if k₀ = k then some v₀ else lookupKey k rest := rfl

theorem btInsert_nil {α β : Type} [LinearOrder α] (k : α) (v : β) :
    btInsert k v [] = [(k, v)] := rfl

theorem btInsert_cons {α β : Type} [LinearOrder α] (k k₀ : α) (v v₀ : β)
    (rest : List (α × β)) :
    btInsert k v ((k₀, v₀) :: rest) =
      if k < k₀ then (k, v) :: (k₀, v₀) :: rest
      else if k = k₀ then (k, v) :: rest
      else (k₀, v₀) :: btInsert k v rest := rfl

theorem lastLE_nil (V : Nat) : lastLE [] V = none := rfl

theorem lastLE_cons (p : Nat × Option String) (rest : List (Nat × Option String))
    (V : Nat) :
    lastLE (p :: rest) V = match lastLE rest V with
      | some q => some q
      | none => if p.1 ≤ V then some p else none := rfl

/-! ### Association-list lemmas -/

theorem lookup_btInsert_self {β : Type} (k : String) (v : β) (l : List (String × β)) :
    lookupKey k (btInsert k v l) = some v := by
  induction l with
  | nil => simp [btInsert_nil, lookupKey_cons]
  | cons a rest ih =>
    obtain ⟨k₀, v₀⟩ := a
    rw [btInsert_cons]
    by_cases h1 : k < k₀
    · rw [if_pos h1, lookupKey_cons, if_pos rfl]
    · rw [if_neg h1]
      by_cases h2 : k = k₀
      · rw [if_pos h2, lookupKey_cons, if_pos rfl]
      · have h3 : k₀ ≠ k := fun h => h2 h.symm
        rw [if_neg h2, lookupKey_cons, if_neg h3, ih]

theorem lookup_btInsert_ne {β : Type} {k k' : String} (v : β) (l : List (String × β))
    (hne : k' ≠ k) : lookupKey k' (btInsert k v l) = lookupKey k' l := by
  have hne' : k ≠ k' := fun h => hne h.symm
  induction l with
  | nil => rw [btInsert_nil, lookupKey_cons, if_neg hne', lookupKey_nil]
  | cons a rest ih =>
    obtain ⟨k₀, v₀⟩ := a
    rw [btInsert_cons]
    by_cases h1 : k < k₀
    · rw [if_pos h1, lookupKey_cons, if_neg hne']
    · rw [if_neg h1]
      by_cases h2 : k = k₀
      · subst h2
        rw [if_pos rfl, lookupKey_cons, if_neg hne', lookupKey_cons, if_neg hne']
      · rw [if_neg h2, lookupKey_cons, lookupKey_cons, ih]

theorem mem_btInsert {β : Type} {q : Nat × β} {k : Nat} {v : β}
    {l : List (Nat × β)} (hq : q ∈ btInsert k v l) : q = (k, v) ∨ q ∈ l := by
  induction l with
  | nil => rw [btInsert_nil] at hq; simp at hq; exact Or.inl hq
  | cons a rest ih =>
    obtain ⟨k₀, v₀⟩ := a
    rw [btInsert_cons] at hq
    by_cases h1 : k < k₀
    · rw [if_pos h1] at hq
      simpa using hq
    · rw [if_neg h1] at hq
      by_cases h2 : k = k₀
      · rw [if_pos h2] at hq
        rcases List.mem_cons.mp hq with h | h
        · exact Or.inl h
        · exact Or.inr (List.mem_cons_of_mem _ h)
      · rw [if_neg h2] at hq
        rcases List.mem_cons.mp hq with h | h
        · exact Or.inr (h ▸ List.mem_cons_self _ _)
        · rcases ih h with h' | h'
          · exact Or.inl h'
          · exact Or.inr (List.mem_cons_of_mem _ h')

theorem pairwise_btInsert_le {h : List (Nat × Option String)} {nv : Nat}
    (vo : Option String) (hb : ∀ p ∈ h, p.1 ≤ nv) (hp : List.Pairwise VLt h) :
    List.Pairwise VLt (btInsert nv vo h) := by
  induction h with
  | nil => simp [btInsert_nil]
  | cons a rest ih =>
    obtain ⟨k₀, v₀⟩ := a
    have hk₀ : k₀ ≤ nv := hb (k₀, v₀) (List.mem_cons_self _ _)
    have h1 : ¬ nv < k₀ := not_lt.mpr hk₀
    rcases List.pairwise_cons.mp hp with ⟨hhead, htail⟩
    rw [btInsert_cons, if_neg h1]
    by_cases h2 : nv = k₀
    · rw [if_pos h2]
      subst h2
      exact List.pairwise_cons.mpr ⟨fun q hq => hhead q hq, htail⟩
    · rw [if_neg h2]
      have hk₀lt : k₀ < nv := lt_of_le_of_ne hk₀ fun h => h2 h.symm
      refine List.pairwise_cons.mpr ⟨fun q hq => ?_, ?_⟩
      · rcases mem_btInsert hq with h | h
        · subst h
          exact hk₀lt
        · exact hhead q h
      · exact ih (fun p hp' => hb p (List.mem_cons_of_mem _ hp')) htail

/-! ### `lastLE` lemmas: `read_at` as a greatest-version-below lookup -/

theorem find?_append_aux {α : Type} (p : α → Bool) (l₁ l₂ : List α) :
    (l₁ ++ l₂).find? p = match l₁.find? p with
      | some x => some x
      | none => l₂.find? p := by
  induction l₁ with
  | nil => simp
  | cons a t ih =>
    cases hp : p a
    · rw [List.cons_append, List.find?_cons_of_neg _ (by simp [hp]),
        List.find?_cons_of_neg _ (by simp [hp]), ih]
    · rw [List.cons_append, List.find?_cons_of_pos _ hp, List.find?_cons_of_pos _ hp]

theorem reverse_find_eq_lastLE (h : List (Nat × Option String)) (V : Nat) :
    h.reverse.find? (fun p => p.1 ≤ V) = lastLE h V := by
  induction h with
  | nil => rfl
  | cons a t ih =>
    rw [List.reverse_cons, find?_append_aux, ih, lastLE_cons]
    cases ht : lastLE t V with
    | some q => rfl
    | none =>
      by_cases hV : a.1 ≤ V
      · simp [List.find?, hV]
      · simp [List.find?, hV]

theorem read_at_eq_histRead (s : KVStore) (k : String) (V : Nat) :
    s.read_at k V = (histRead s.data k V).bind (fun p => p.2) := by
  unfold KVStore.read_at histRead
  cases lookupKey k s.data with
  | none => rfl
  | some h =>
    dsimp only
    rw [reverse_find_eq_lastLE]
    cases lastLE h V <;> rfl

theorem lastLE_btInsert_gt {nv V : Nat} (vo : Option String)
    (h : List (Nat × Option String)) (hV : V < nv) :
    lastLE (btInsert nv vo h) V = lastLE h V := by
  have hnle : ¬ nv ≤ V := not_le.mpr hV
  induction h with
  | nil => rw [btInsert_nil, lastLE_cons, lastLE_nil]; simp [hnle]
  | cons a t ih =>
    obtain ⟨k₀, v₀⟩ := a
    rw [btInsert_cons]
    by_cases h1 : nv < k₀
    · rw [if_pos h1, lastLE_cons]
      cases ht : lastLE ((k₀, v₀) :: t) V with
      | some q => rfl
      | none => simp [hnle]
    · rw [if_neg h1]
      by_cases h2 : nv = k₀
      · rw [if_pos h2, lastLE_cons, lastLE_cons]
        cases ht : lastLE t V with
        | some q => rfl
        | none =>
          have hk₀ : ¬ k₀ ≤ V := h2 ▸ hnle
          simp [hnle, hk₀]
      · rw [if_neg h2, lastLE_cons, lastLE_cons, ih]

theorem lastLE_btInsert_le {nv V : Nat} (vo : Option String)
    {h : List (Nat × Option String)} (hall : ∀ p ∈ h, p.1 < nv) (hV : nv ≤ V) :
    lastLE (btInsert nv vo h) V = some (nv, vo) := by
  induction h with
  | nil => rw [btInsert_nil, lastLE_cons, lastLE_nil]; simp [hV]
  | cons a t ih =>
    obtain ⟨k₀, v₀⟩ := a
    have hk₀ : k₀ < nv := hall (k₀, v₀) (List.mem_cons_self _ _)
    have h1 : ¬ nv < k₀ := by exact not_lt.mpr (le_of_lt hk₀)
    have h2 : nv ≠ k₀ := Nat.ne_of_gt hk₀
    rw [btInsert_cons, if_neg h1, if_neg h2, lastLE_cons,
      ih (fun p hp => hall p (List.mem_cons_of_mem _ hp))]

theorem lastLE_mem {h : List (Nat × Option String)} {V : Nat}
    {q : Nat × Option String} (hq : lastLE h V = some q) : q ∈ h ∧ q.1 ≤ V := by
  induction h with
  | nil => rw [lastLE_nil] at hq; cases hq
  | cons a t ih =>
    rw [lastLE_cons] at hq
    cases ht : lastLE t V with
    | some r =>
      rw [ht] at hq
      simp only [] at hq
      cases hq
      rcases ih ht with ⟨hm, hle⟩
      exact ⟨List.mem_cons_of_mem _ hm, hle⟩
    | none =>
      rw [ht] at hq
      simp only [] at hq
      by_cases hV : a.1 ≤ V
      · rw [if_pos hV] at hq
        cases hq
        exact ⟨List.mem_cons_self _ _, hV⟩
      · rw [if_neg hV] at hq
        cases hq

theorem lastLE_none {h : List (Nat × Option String)} {V : Nat}
    (hn : lastLE h V = none) : ∀ q ∈ h, ¬ q.1 ≤ V := by
  induction h with
  | nil => simp
  | cons a t ih =>
    rw [lastLE_cons] at hn
    cases ht : lastLE t V with
    | some r => rw [ht] at hn; cases hn
    | none =>
      rw [ht] at hn
      simp only [] at hn
      by_cases hV : a.1 ≤ V
      · rw [if_pos hV] at hn; cases hn
      · intro q hq
        rcases List.mem_cons.mp hq with h | h
        · subst h; exact hV
        · exact ih ht q h

theorem lastLE_greatest {h : List (Nat × Option String)} {V : Nat}
    {p : Nat × Option String} (hs : List.Pairwise VLt h) (hm : p ∈ h)
    (hle : p.1 ≤ V) (hmax : ∀ q ∈ h, q.1 ≤ V → q.1 ≤ p.1) :
    lastLE h V = some p := by
  induction h with
  | nil => cases hm
  | cons a t ih =>
    rcases List.pairwise_cons.mp hs with ⟨hhead, htail⟩
    rw [lastLE_cons]
    cases ht : lastLE t V with
    | some q =>
      rcases lastLE_mem ht with ⟨hqm, hqle⟩
      rcases List.mem_cons.mp hm with hp | hp
      · subst hp
        have h1 : p.1 < q.1 := hhead q hqm
        have h2 : q.1 ≤ p.1 := hmax q (List.mem_cons_of_mem _ hqm) hqle
        exact absurd h2 (not_le.mpr h1)
      · rw [ih htail hp (fun r hr hrle => hmax r (List.mem_cons_of_mem _ hr) hrle)] at ht
        rw [ht]
    | none =>
      have hnot := lastLE_none ht
      rcases List.mem_cons.mp hm with hp | hp
      · subst hp
        simp only []
        rw [if_pos hle]
      · exact absurd hle (hnot p hp)

/-! ### `applyWrites` lemmas -/

theorem applyWrites_nil (nv : Nat) (d : List (String × List (Nat × Option String))) :
    applyWrites nv [] d = d := rfl

theorem applyWrites_cons (nv : Nat) (k₀ : String) (vo₀ : Option String)
    (ws : List (String × Option String)) (d : List (String × List (Nat × Option String))) :
    applyWrites nv ((k₀, vo₀) :: ws) d =
      applyWrites nv ws (btInsert k₀ (btInsert nv vo₀ ((lookupKey k₀ d).getD [])) d) := rfl

theorem lookup_applyWrites_none {nv : Nat} {k : String}
    {ws : List (String × Option String)} {d : List (String × List (Nat × Option String))}
    (hk : lookupKey k ws = none) :
    lookupKey k (applyWrites nv ws d) = lookupKey k d := by
  induction ws generalizing d with
  | nil => rw [applyWrites_nil]
  | cons a ws ih =>
    obtain ⟨k₀, vo₀⟩ := a
    rw [lookupKey_cons] at hk
    by_cases h0 : k₀ = k
    · rw [if_pos h0] at hk; cases hk
    · rw [if_neg h0] at hk
      have hne : k ≠ k₀ := fun h => h0 h.symm
      rw [applyWrites_cons, ih hk, lookup_btInsert_ne _ _ hne]

theorem lookupKey_mem_fst {β : Type} {k : String} {v : β} {l : List (String × β)}
    (hl : lookupKey k l = some v) : k ∈ l.map Prod.fst := by
  induction l with
  | nil => rw [lookupKey_nil] at hl; cases hl
  | cons a rest ih =>
    obtain ⟨k₀, v₀⟩ := a
    rw [lookupKey_cons] at hl
    by_cases h0 : k₀ = k
    · subst h0
      exact List.mem_cons_self _ _
    · rw [if_neg h0] at hl
      exact List.mem_cons_of_mem _ (ih hl)

theorem lookup_applyWrites_some {nv : Nat} {k : String} {vo : Option String}
    {ws : List (String × Option String)} {d : List (String × List (Nat × Option String))}
    (hnd : (ws.map Prod.fst).Nodup) (hk : lookupKey k ws = some vo) :
    lookupKey k (applyWrites nv ws d) =
      some (btInsert nv vo ((lookupKey k d).getD [])) := by
  induction ws generalizing d with
  | nil => rw [lookupKey_nil] at hk; cases hk
  | cons a ws ih =>
    obtain ⟨k₀, vo₀⟩ := a
    rw [List.map_cons, List.nodup_cons] at hnd
    rcases hnd with ⟨hk₀, hnd⟩
    rw [lookupKey_cons] at hk
    rw [applyWrites_cons]
    by_cases h0 : k₀ = k
    · rw [if_pos h0] at hk
      cases hk
      subst h0
      have hmiss : lookupKey k₀ ws = none := by
        cases hl : lookupKey k₀ ws with
        | none => rfl
        | some v =>
          exact absurd (lookupKey_mem_fst hl) hk₀
      rw [lookup_applyWrites_none hmiss, lookup_btInsert_self]
    · rw [if_neg h0] at hk
      have hne : k ≠ k₀ := fun h => h0 h.symm
      rw [ih hnd hk, lookup_btInsert_ne _ _ hne]

theorem histRead_applyWrites_lt {nv V : Nat} (hV : V < nv) (k : String)
    (ws : List (String × Option String)) (d : List (String × List (Nat × Option String))) :
    histRead (applyWrites nv ws d) k V = histRead d k V := by
  induction ws generalizing d with
  | nil => rw [applyWrites_nil]
  | cons a ws ih =>
    obtain ⟨k₀, vo₀⟩ := a
    rw [applyWrites_cons, ih]
    unfold histRead
    by_cases h0 : k = k₀
    · subst h0
      rw [lookup_btInsert_self]
      dsimp only
      rw [lastLE_btInsert_gt _ _ hV]
      cases hl : lookupKey k d with
      | none => rw [Option.getD_none, lastLE_nil]
      | some h => rw [Option.getD_some]
    · rw [lookup_btInsert_ne _ _ h0]

/-! ### `commit` lemmas -/

theorem lookup_isEmpty_false {β : Type} {k : String} {v : β} {l : List (String × β)}
    (hl : lookupKey k l = some v) : l.isEmpty = false := by
  cases l with
  | nil => rw [lookupKey_nil] at hl; cases hl
  | cons a rest => rfl

theorem commit_guard_true {t : Transaction} {s : KVStore}
    (h : t.aborted = true ∨ t.writes.isEmpty = true) :
    t.commit s = (Except.ok (), s) := by
  unfold Transaction.commit
  rcases h with h | h <;> rw [h] <;> simp

theorem commit_eff {t : Transaction} {s : KVStore} (ha : t.aborted = false)
    (hw : t.writes.isEmpty = false) :
    t.commit s = (Except.ok (),
      { data := applyWrites s.next_version t.writes s.data,
        next_version := s.next_version + 1,
        active_version := s.next_version }) := by
  unfold Transaction.commit
  rw [ha, hw]
  rfl

theorem commit_eff_snd {t : Transaction} {s : KVStore} (ha : t.aborted = false)
    (hw : t.writes.isEmpty = false) :
    (t.commit s).2 =
      { data := applyWrites s.next_version t.writes s.data,
        next_version := s.next_version + 1,
        active_version := s.next_version } := by
  rw [commit_eff ha hw]

theorem commit_fst_ok (t : Transaction) (s : KVStore) :
    (t.commit s).1 = Except.ok () := by
  unfold Transaction.commit
  cases t.aborted <;> cases t.writes.isEmpty <;> rfl

theorem commit_read_at_lt {t : Transaction} {s : KVStore} {V : Nat}
    (hV : V < s.next_version) (k : String) :
    ((t.commit s).2).read_at k V = s.read_at k V := by
  cases ha : t.aborted with
  | true => rw [commit_guard_true (Or.inl ha)]
  | false =>
    cases hw : t.writes.isEmpty with
    | true => rw [commit_guard_true (Or.inr hw)]
    | false =>
      rw [commit_eff_snd ha hw, read_at_eq_histRead, read_at_eq_histRead]
      dsimp only
      rw [histRead_applyWrites_lt hV k t.writes s.data]

theorem commit_next_mono (t : Transaction) (s : KVStore) :
    s.next_version ≤ ((t.commit s).2).next_version := by
  cases ha : t.aborted with
  | true => rw [commit_guard_true (Or.inl ha)]
  | false =>
    cases hw : t.writes.isEmpty with
    | true => rw [commit_guard_true (Or.inr hw)]
    | false =>
      rw [commit_eff_snd ha hw]
      exact Nat.le_succ _

theorem steps_preserve {s s' : KVStore} (hst : CommitSteps s s') :
    s.next_version ≤ s'.next_version ∧
    ∀ k V, V < s.next_version → s'.read_at k V = s.read_at k V := by
  induction hst with
  | refl s => exact ⟨le_refl _, fun k V _ => rfl⟩
  | step t hst ih =>
    rcases ih with ⟨hn, hr⟩
    refine ⟨le_trans hn (commit_next_mono _ _), fun k V hV => ?_⟩
    rw [commit_read_at_lt (lt_of_lt_of_le hV hn) k, hr k V hV]

/-! ### Well-formedness is preserved -/

theorem applyWrites_bounded {nv : Nat} {d : List (String × List (Nat × Option String))}
    (hd : ∀ k h, lookupKey k d = some h → List.Pairwise VLt h ∧ ∀ p ∈ h, p.1 ≤ nv)
    (ws : List (String × Option String)) :
    ∀ k h, lookupKey k (applyWrites nv ws d) = some h →
      List.Pairwise VLt h ∧ ∀ p ∈ h, p.1 ≤ nv := by
  induction ws generalizing d with
  | nil => rw [applyWrites_nil]; exact hd
  | cons a ws ih =>
    obtain ⟨k₀, vo₀⟩ := a
    rw [applyWrites_cons]
    refine ih (fun k h hk => ?_)
    by_cases h0 : k = k₀
    · subst h0
      rw [lookup_btInsert_self] at hk
      cases hk
      cases hl : lookupKey k d with
      | none =>
        rw [Option.getD_none, btInsert_nil]
        exact ⟨List.pairwise_singleton _ _, by simp⟩
      | some h₀ =>
        rw [Option.getD_some]
        rcases hd k h₀ hl with ⟨hpw, hbd⟩
        refine ⟨pairwise_btInsert_le vo₀ hbd hpw, fun p hp => ?_⟩
        rcases mem_btInsert hp with h | h
        · subst h; exact le_refl _
        · exact hbd p h
    · rw [lookup_btInsert_ne _ _ h0] at hk
      exact hd k h hk

theorem storeWF_new : StoreWF KVStore.new := by
  refine ⟨Nat.zero_lt_one, fun k h hk => ?_⟩
  rw [show KVStore.new.data = [] from rfl, lookupKey_nil] at hk
  cases hk

theorem storeWF_commit (t : Transaction) {s : KVStore} (h : StoreWF s) :
    StoreWF ((t.commit s).2) := by
  cases ha : t.aborted with
  | true => rw [commit_guard_true (Or.inl ha)]; exact h
  | false =>
    cases hw : t.writes.isEmpty with
    | true => rw [commit_guard_true (Or.inr hw)]; exact h
    | false =>
      rw [commit_eff_snd ha hw]
      rcases h with ⟨hlt, hhist⟩
      refine ⟨Nat.lt_succ_self _, fun k hist hk => ?_⟩
      refine applyWrites_bounded (fun k' h' hk' => ?_) t.writes k hist hk
      rcases hhist k' h' hk' with ⟨hpw, hbd⟩
      exact ⟨hpw, fun p hp => le_of_lt (lt_of_le_of_lt (hbd p hp) hlt)⟩

theorem storeWF_reachable {s : KVStore} (h : ReachableStore s) : StoreWF s := by
  induction h with
  | new => exact storeWF_new
  | commit t _ ih => exact storeWF_commit t ih

/-! ### Version-allocation lemmas -/

theorem runCommits_nil (s : KVStore) : runCommits s [] = (s, []) := rfl

theorem runCommits_cons (s : KVStore) (t : Transaction) (ts : List Transaction) :
    runCommits s (t :: ts) =
      if t.aborted || t.writes.isEmpty then runCommits (t.commit s).2 ts
      else ((runCommits (t.commit s).2 ts).1,
        s.next_version :: (runCommits (t.commit s).2 ts).2) := rfl

theorem runCommits_versions {ts : List Transaction}
    (heff : ∀ t ∈ ts, t.aborted = false ∧ t.writes.isEmpty = false) (s : KVStore) :
    (runCommits s ts).2 = List.range' s.next_version ts.length := by
  induction ts generalizing s with
  | nil => simp [runCommits_nil, List.range']
  | cons t ts ih =>
    rcases heff t (List.mem_cons_self _ _) with ⟨ha, hw⟩
    rw [runCommits_cons, ha, hw, if_neg (by simp)]
    have hnext : ((t.commit s).2).next_version = s.next_version + 1 := by
      rw [commit_eff_snd ha hw]
    have := ih (fun t' ht' => heff t' (List.mem_cons_of_mem _ ht')) (t.commit s).2
    rw [hnext] at this
    simp only [this, List.length_cons, List.range']

theorem commitTrace_nil (s : KVStore) : commitTrace s [] = [] := rfl

theorem commitTrace_cons (s : KVStore) (t : Transaction) (ts : List Transaction) :
    commitTrace s (t :: ts) = (t.commit s).2 :: commitTrace (t.commit s).2 ts := rfl

theorem commitTrace_mono {ts : List Transaction} {s : KVStore}
    (hinv : s.active_version < s.next_version)
    (heff : ∀ t ∈ ts, t.aborted = false ∧ t.writes.isEmpty = false) :
    List.Chain' (fun a b => a.active_version ≤ b.active_version) (s :: commitTrace s ts)
    ∧ ∀ x ∈ commitTrace s ts, x.active_version < s.next_version + ts.length := by
  induction ts generalizing s with
  | nil => exact ⟨List.chain'_singleton s, by simp [commitTrace_nil]⟩
  | cons t ts ih =>
    rcases heff t (List.mem_cons_self _ _) with ⟨ha, hw⟩
    have hsnd := commit_eff_snd (s := s) ha hw
    have hact : ((t.commit s).2).active_version = s.next_version := by rw [hsnd]
    have hnext : ((t.commit s).2).next_version = s.next_version + 1 := by rw [hsnd]
    have hinv' : ((t.commit s).2).active_version < ((t.commit s).2).next_version := by
      rw [hact, hnext]; exact Nat.lt_succ_self _
    rcases ih hinv' (fun t' ht' => heff t' (List.mem_cons_of_mem _ ht')) with ⟨hch, hbd⟩
    constructor
    · rw [commitTrace_cons]
      exact List.Chain'.cons (by rw [hact]; exact le_of_lt hinv) hch
    · rw [commitTrace_cons]
      intro x hx
      rcases List.mem_cons.mp hx with hx | hx
      · subst hx
        rw [hact, List.length_cons]
        omega
      · have hb' := hbd x hx
        rw [hnext] at hb'
        rw [List.length_cons]
        omega

theorem read_at_commit_ge {t : Transaction} {s : KVStore} {k : String}
    {vo : Option String} {V : Nat} (ha : t.aborted = false)
    (hnd : (t.writes.map Prod.fst).Nodup)
    (hk : lookupKey k t.writes = some vo)
    (hb : ∀ p ∈ (lookupKey k s.data).getD [], p.1 < s.next_version)
    (hV : s.next_version ≤ V) :
    ((t.commit s).2).read_at k V = vo := by
  have hw := lookup_isEmpty_false hk
  rw [commit_eff_snd ha hw, read_at_eq_histRead]
  dsimp only
  unfold histRead
  rw [lookup_applyWrites_some hnd hk]
  dsimp only
  rw [lastLE_btInsert_le vo hb hV]
  rfl

/-! ### Claim theorems -/

/-- C1: For an active transaction `t` begun on store `s` (so its snapshot is
`s.active_version`) and a key not in its write buffer, `t.get` returns exactly
the store lookup `read_at(k, S)`, unchanged by any sequence of commits
applied to the store after `t` began. -/
theorem snapshot_isolation (s s' : KVStore) (t : Transaction) (k : String)
    (hinv : s.active_version < s.next_version)
    (hsteps : CommitSteps s s')
    (hact : t.aborted = false)
    (hsnap : t.snapshot_version = s.active_version)
    (hbuf : lookupKey k t.writes = none) :
    t.get s' k = Except.ok (s.read_at k t.snapshot_version)
    ∧ s'.read_at k t.snapshot_version = s.read_at k t.snapshot_version := by
  have hV : t.snapshot_version < s.next_version := by rw [hsnap]; exact hinv
  have hpres := (steps_preserve hsteps).2 k t.snapshot_version hV
  refine ⟨?_, hpres⟩
  simp [Transaction.get, hact, hbuf, hpres]

/-- C1 witness: a commit of key `b` after `t` began does not change what `t`
reads for key `a`. -/
theorem snapshot_isolation_witness :
    Transaction.get ⟨1, [], false⟩
        ((Transaction.commit ⟨1, [("b", some "z")], false⟩
          ⟨[("a", [(1, some "x")])], 2, 1⟩).2) "a"
      = Except.ok (KVStore.read_at ⟨[("a", [(1, some "x")])], 2, 1⟩ "a" 1) :=
  (snapshot_isolation ⟨[("a", [(1, some "x")])], 2, 1⟩ _ ⟨1, [], false⟩ "a"
    (by decide)
    (CommitSteps.step ⟨1, [("b", some "z")], false⟩ (CommitSteps.refl _))
    rfl rfl rfl).1

/-- C2: A commit of a buffer containing `k1 ↦ v1` and `k2 ↦ v2` is assigned
version `Vc = s.next_version`; a reader transaction with snapshot `≥ Vc` and
neither key buffered observes both committed values, and one with snapshot
`< Vc` observes for both keys exactly what the pre-commit store answered. -/
theorem atomic_multi_key_commit (s : KVStore) (t : Transaction)
    (k1 k2 v1 v2 : String)
    (hb1 : ∀ p ∈ (lookupKey k1 s.data).getD [], p.1 < s.next_version)
    (hb2 : ∀ p ∈ (lookupKey k2 s.data).getD [], p.1 < s.next_version)
    (hact : t.aborted = false)
    (hnd : (t.writes.map Prod.fst).Nodup)
    (h1 : lookupKey k1 t.writes = some (some v1))
    (h2 : lookupKey k2 t.writes = some (some v2))
    (tr : Transaction) (htr : tr.aborted = false)
    (htr1 : lookupKey k1 tr.writes = none) (htr2 : lookupKey k2 tr.writes = none) :
    (s.next_version ≤ tr.snapshot_version →
      tr.get (t.commit s).2 k1 = Except.ok (some v1)
      ∧ tr.get (t.commit s).2 k2 = Except.ok (some v2))
    ∧ (tr.snapshot_version < s.next_version →
      tr.get (t.commit s).2 k1 = Except.ok (s.read_at k1 tr.snapshot_version)
      ∧ tr.get (t.commit s).2 k2 = Except.ok (s.read_at k2 tr.snapshot_version)) := by
  constructor
  · intro hge
    constructor
    · simp [Transaction.get, htr, htr1, read_at_commit_ge hact hnd h1 hb1 hge]
    · simp [Transaction.get, htr, htr2, read_at_commit_ge hact hnd h2 hb2 hge]
  · intro hlt
    constructor
    · simp [Transaction.get, htr, htr1, commit_read_at_lt hlt k1]
    · simp [Transaction.get, htr, htr2, commit_read_at_lt hlt k2]

/-- C2 witness: after committing `{a ↦ 1, b ↦ 2}` at version 1 on the fresh
store, a reader with snapshot 1 sees both values. -/
theorem atomic_multi_key_commit_witness :
    Transaction.get ⟨1, [], false⟩
        ((Transaction.commit ⟨0, [("a", some "1"), ("b", some "2")], false⟩
          ⟨[], 1, 0⟩).2) "a" = Except.ok (some "1")
    ∧ Transaction.get ⟨1, [], false⟩
        ((Transaction.commit ⟨0, [("a", some "1"), ("b", some "2")], false⟩
          ⟨[], 1, 0⟩).2) "b" = Except.ok (some "2") :=
  (atomic_multi_key_commit ⟨[], 1, 0⟩ ⟨0, [("a", some "1"), ("b", some "2")], false⟩
    "a" "b" "1" "2" (by decide) (by decide) rfl (by decide) (by decide) (by decide)
    ⟨1, [], false⟩ rfl rfl rfl).1 (by decide)

/-- C3: `read_at(k, V)` returns the stored entry (value, or `None` for a
tombstone) at the greatest version `≤ V` of `k`'s history, and `None`
("absent") when no recorded version is `≤ V` — in particular when `k` has no
history at all.  The embedding of `read_at` is a pure function of the store,
so the lookup has no side effect by construction. -/
theorem read_at_greatest_version (s : KVStore) (k : String) (V : Nat)
    (hs : List.Pairwise VLt ((lookupKey k s.data).getD [])) :
    (lookupKey k s.data = none → s.read_at k V = none)
    ∧ ((∀ q ∈ (lookupKey k s.data).getD [], ¬ q.1 ≤ V) → s.read_at k V = none)
    ∧ ∀ p ∈ (lookupKey k s.data).getD [], p.1 ≤ V →
        (∀ q ∈ (lookupKey k s.data).getD [], q.1 ≤ V → q.1 ≤ p.1) →
        s.read_at k V = p.2 := by
  refine ⟨?_, ?_, ?_⟩
  · intro h
    rw [read_at_eq_histRead]
    unfold histRead
    rw [h]
    rfl
  · intro hnone
    rw [read_at_eq_histRead]
    unfold histRead
    cases hl : lookupKey k s.data with
    | none => rfl
    | some h =>
      rw [hl, Option.getD_some] at hnone
      dsimp only
      cases hll : lastLE h V with
      | none => rfl
      | some q =>
        rcases lastLE_mem hll with ⟨hqm, hqle⟩
        exact absurd hqle (hnone q hqm)
  · intro p hp hple hmax
    rw [read_at_eq_histRead]
    unfold histRead
    cases hl : lookupKey k s.data with
    | none =>
      rw [hl, Option.getD_none] at hp
      cases hp
    | some h =>
      rw [hl, Option.getD_some] at hp hmax hs
      dsimp only
      rw [lastLE_greatest hs hp hple hmax]
      rfl

/-- C3 witness: with history `[(1, "x"), (3, tombstone)]` for `a`, the entry
at the greatest version `≤ 2` is `(1, "x")`, and `read_at` returns `"x"`. -/
theorem read_at_greatest_version_witness :
    KVStore.read_at ⟨[("a", [(1, some "x"), (3, none)])], 4, 3⟩ "a" 2 = some "x" :=
  (read_at_greatest_version ⟨[("a", [(1, some "x"), (3, none)])], 4, 3⟩ "a" 2
    (by decide)).2.2 (1, some "x") (by decide) (by decide) (by decide)

/-- C4: After a transaction whose buffer records `delete(k)` (a tombstone for
`k`) commits at version `Vd = s.next_version`, `read_at(k, V)` is `none`
("absent") for every `V ≥ Vd` and, for every `V < Vd`, equals what the store
answered for `k` before the deletion was committed. -/
theorem tombstone_correctness (s : KVStore) (t : Transaction) (k : String)
    (hb : ∀ p ∈ (lookupKey k s.data).getD [], p.1 < s.next_version)
    (hact : t.aborted = false)
    (hnd : (t.writes.map Prod.fst).Nodup)
    (hdel : lookupKey k t.writes = some none) :
    ∀ V : Nat,
      (s.next_version ≤ V → ((t.commit s).2).read_at k V = none)
      ∧ (V < s.next_version → ((t.commit s).2).read_at k V = s.read_at k V) := by
  intro V
  constructor
  · intro hge
    exact read_at_commit_ge hact hnd hdel hb hge
  · intro hlt
    exact commit_read_at_lt hlt k

/-- C4 witness: deleting `a` (value `"x"` at version 1) and committing at
version 2 makes `read_at(a, 2)` absent while `read_at(a, 1)` still answers
as before the deletion. -/
theorem tombstone_correctness_witness :
    ((Transaction.commit ⟨1, [("a", none)], false⟩
        ⟨[("a", [(1, some "x")])], 2, 1⟩).2).read_at "a" 2 = none
    ∧ ((Transaction.commit ⟨1, [("a", none)], false⟩
        ⟨[("a", [(1, some "x")])], 2, 1⟩).2).read_at "a" 1
      = KVStore.read_at ⟨[("a", [(1, some "x")])], 2, 1⟩ "a" 1 :=
  ⟨(tombstone_correctness ⟨[("a", [(1, some "x")])], 2, 1⟩ ⟨1, [("a", none)], false⟩
      "a" (by decide) rfl (by decide) (by decide) 2).1 (by decide),
   (tombstone_correctness ⟨[("a", [(1, some "x")])], 2, 1⟩ ⟨1, [("a", none)], false⟩
      "a" (by decide) rfl (by decide) (by decide) 1).2 (by decide)⟩

/-- C5: Versions start at 1 (the fresh store has `active_version = 0`,
`next_version = 1`); across any execution of `N` commits that each publish a
non-empty buffer the allocated versions are exactly `1, …, N` in order
(hence strictly increasing and never reused); the visible version — which is
what `begin` returns as a snapshot — is monotonically non-decreasing along
the execution and never exceeds `N`, the largest assigned version. -/
theorem version_counter_protocol (ts : List Transaction)
    (heff : ∀ t ∈ ts, t.aborted = false ∧ t.writes.isEmpty = false) :
    KVStore.new.active_version = 0
    ∧ KVStore.new.next_version = 1
    ∧ (runCommits KVStore.new ts).2 = List.range' 1 ts.length
    ∧ List.Chain' (fun a b => a.active_version ≤ b.active_version)
        (KVStore.new :: commitTrace KVStore.new ts)
    ∧ (∀ x ∈ commitTrace KVStore.new ts, x.active_version ≤ ts.length)
    ∧ ∀ x : KVStore, (x.begin).snapshot_version = x.active_version := by
  refine ⟨rfl, rfl, runCommits_versions heff KVStore.new, ?_, ?_, fun x => rfl⟩
  · exact (commitTrace_mono Nat.zero_lt_one heff).1
  · intro x hx
    have hbd := (commitTrace_mono (s := KVStore.new) Nat.zero_lt_one heff).2 x hx
    have h1 : KVStore.new.next_version = 1 := rfl
    rw [h1] at hbd
    omega

/-- C5 witness: two effective commits on the fresh store are assigned
versions `[1, 2]`. -/
theorem version_counter_protocol_witness :
    (runCommits KVStore.new
      [⟨0, [("a", some "x")], false⟩, ⟨1, [("a", none)], false⟩]).2
      = List.range' 1 2 :=
  (version_counter_protocol
    [⟨0, [("a", some "x")], false⟩, ⟨1, [("a", none)], false⟩]
    (by decide)).2.2.1

/-- C6: After `t.put(k, v)` on an active transaction, `t.get(k)` returns `v`
within the same transaction, before any commit, whatever the store holds
for `k` (the read never consults the store for a buffered key). -/
theorem read_your_own_write (t : Transaction) (k v : String)
    (hact : t.aborted = false) :
    (t.put k v).1 = Except.ok ()
    ∧ ∀ s : KVStore, ((t.put k v).2).get s k = Except.ok (some v) := by
  constructor
  · simp [Transaction.put, hact]
  · intro s
    simp [Transaction.put, Transaction.get, hact, lookup_btInsert_self]

/-- C6 witness: a buffered `a ↦ "mine"` is read back as `"mine"` even though
the store's committed value for `a` at the snapshot is `"other"`. -/
theorem read_your_own_write_witness :
    ((Transaction.put ⟨1, [], false⟩ "a" "mine").2).get
      ⟨[("a", [(1, some "other")])], 2, 1⟩ "a" = Except.ok (some "mine") :=
  (read_your_own_write ⟨1, [], false⟩ "a" "mine" rfl).2
    ⟨[("a", [(1, some "other")])], 2, 1⟩

/-- C7: `TransactionAborted` is the only error value; `get`, `put` and
`delete` fail with it exactly when the `aborted` flag is set, and that flag
is set only by `rollback` (it is `false` at `begin` and preserved by `put`
and `delete`); `commit` and `rollback` always return `Ok` — in particular
`commit` on an aborted transaction or an empty buffer returns success
without touching the store, and `rollback` is idempotent. -/
theorem error_discipline :
    (∀ e : KVError, e = KVError.TransactionAborted)
    ∧ (∀ (t : Transaction) (s : KVStore) (k : String),
        t.get s k = Except.error KVError.TransactionAborted ↔ t.aborted = true)
    ∧ (∀ (t : Transaction) (k v : String),
        (t.put k v).1 = Except.error KVError.TransactionAborted ↔ t.aborted = true)
    ∧ (∀ (t : Transaction) (k : String),
        (t.delete k).1 = Except.error KVError.TransactionAborted ↔ t.aborted = true)
    ∧ (∀ (t : Transaction) (s : KVStore), (t.commit s).1 = Except.ok ())
    ∧ (∀ t : Transaction, (t.rollback).1 = Except.ok ())
    ∧ (∀ (t : Transaction) (s : KVStore),
        t.aborted = true ∨ t.writes.isEmpty = true → t.commit s = (Except.ok (), s))
    ∧ (∀ t : Transaction, ((t.rollback).2).rollback = t.rollback)
    ∧ (∀ t : Transaction, ((t.rollback).2).aborted = true)
    ∧ (∀ (t : Transaction) (k v : String), ((t.put k v).2).aborted = t.aborted)
    ∧ (∀ (t : Transaction) (k : String), ((t.delete k).2).aborted = t.aborted)
    ∧ (∀ s : KVStore, (s.begin).aborted = false) := by
  refine ⟨fun e => by cases e; rfl, ?_, ?_, ?_, fun t s => commit_fst_ok t s,
    fun t => rfl, fun t s h => commit_guard_true h, fun t => rfl, fun t => rfl,
    ?_, ?_, fun s => rfl⟩
  · intro t s k
    cases ha : t.aborted with
    | true => simp [Transaction.get, ha]
    | false =>
      simp only [Transaction.get, ha, Bool.false_eq_true, if_false]
      cases hl : lookupKey k t.writes <;> simp [hl]
  · intro t k v
    cases ha : t.aborted <;> simp [Transaction.put, ha]
  · intro t k
    cases ha : t.aborted <;> simp [Transaction.delete, ha]
  · intro t k v
    cases ha : t.aborted <;> simp [Transaction.put, ha]
  · intro t k
    cases ha : t.aborted <;> simp [Transaction.delete, ha]

/-- C7 witness: `get` on an aborted transaction fails with
`TransactionAborted`, and `commit` on an empty buffer is a no-op success. -/
theorem error_discipline_witness :
    Transaction.get ⟨0, [], true⟩ KVStore.new "a"
      = Except.error KVError.TransactionAborted
    ∧ Transaction.commit ⟨0, [], false⟩ KVStore.new = (Except.ok (), KVStore.new) :=
  ⟨(error_discipline.2.1 ⟨0, [], true⟩ KVStore.new "a").mpr rfl,
   error_discipline.2.2.2.2.2.2.1 ⟨0, [], false⟩ KVStore.new (Or.inr rfl)⟩

/-- C8: The transaction value carries no "committed" flag, so `get` applied
to a transaction's state after its successful commit (which always returns
`Ok`) still succeeds, resolving through the buffered writes first and
otherwise through the now-stale snapshot against the updated store. -/
theorem post_commit_get (t : Transaction) (s : KVStore) (k : String)
    (hact : t.aborted = false) :
    (t.commit s).1 = Except.ok ()
    ∧ t.get (t.commit s).2 k = Except.ok (match lookupKey k t.writes with
        | some vo => vo
        | none => ((t.commit s).2).read_at k t.snapshot_version) := by
  refine ⟨commit_fst_ok t s, ?_⟩
  cases hl : lookupKey k t.writes with
  | some vo => simp [Transaction.get, hact, hl]
  | none => simp [Transaction.get, hact, hl]

/-- C8 witness: after committing `a ↦ "x"`, reading `a` through the same
transaction value still succeeds and returns the buffered `"x"`. -/
theorem post_commit_get_witness :
    Transaction.get ⟨0, [("a", some "x")], false⟩
      ((Transaction.commit ⟨0, [("a", some "x")], false⟩ KVStore.new).2) "a"
      = Except.ok (some "x") :=
  (post_commit_get ⟨0, [("a", some "x")], false⟩ KVStore.new "a" rfl).2

/-- C9: `read_at` (and hence `Transaction::get`) returns a two-valued
`Option`: after a committed deletion of `k`, every lookup at or above the
delete's version answers `none`, exactly as for a key `kf` that was never
written, and a fresh transaction's `get` cannot distinguish the two. -/
theorem deleted_indistinguishable_from_absent (s : KVStore) (t : Transaction)
    (k kf : String)
    (hb : ∀ p ∈ (lookupKey k s.data).getD [], p.1 < s.next_version)
    (hact : t.aborted = false)
    (hnd : (t.writes.map Prod.fst).Nodup)
    (hdel : lookupKey k t.writes = some none)
    (hf1 : lookupKey kf s.data = none)
    (hf2 : lookupKey kf t.writes = none) :
    ∀ V : Nat, s.next_version ≤ V →
      ((t.commit s).2).read_at k V = none
      ∧ ((t.commit s).2).read_at kf V = none
      ∧ (KVStore.begin (t.commit s).2).get (t.commit s).2 k
        = (KVStore.begin (t.commit s).2).get (t.commit s).2 kf := by
  intro V hge
  have hw := lookup_isEmpty_false hdel
  have hfnone : ∀ W : Nat, ((t.commit s).2).read_at kf W = none := by
    intro W
    rw [commit_eff_snd hact hw, read_at_eq_histRead]
    dsimp only
    unfold histRead
    rw [lookup_applyWrites_none hf2, hf1]
    rfl
  have hknone : ∀ W : Nat, s.next_version ≤ W → ((t.commit s).2).read_at k W = none :=
    fun W hW => read_at_commit_ge hact hnd hdel hb hW
  refine ⟨hknone V hge, hfnone V, ?_⟩
  have hact' : ((t.commit s).2).active_version = s.next_version := by
    rw [commit_eff_snd hact hw]
  simp [Transaction.get, KVStore.begin, lookupKey_nil, hact',
    hknone s.next_version (le_refl _), hfnone]

/-- C9 witness: committing a deletion of `a` on the fresh store makes `a`
read exactly like the never-written key `b`. -/
theorem deleted_indistinguishable_from_absent_witness :
    ((Transaction.commit ⟨0, [("a", none)], false⟩ KVStore.new).2).read_at "a" 1 = none
    ∧ ((Transaction.commit ⟨0, [("a", none)], false⟩ KVStore.new).2).read_at "b" 1 = none
    ∧ (KVStore.begin (Transaction.commit ⟨0, [("a", none)], false⟩ KVStore.new).2).get
        (Transaction.commit ⟨0, [("a", none)], false⟩ KVStore.new).2 "a"
      = (KVStore.begin (Transaction.commit ⟨0, [("a", none)], false⟩ KVStore.new).2).get
        (Transaction.commit ⟨0, [("a", none)], false⟩ KVStore.new).2 "b" :=
  deleted_indistinguishable_from_absent KVStore.new ⟨0, [("a", none)], false⟩
    "a" "b" (by decide) rfl (by decide) (by decide) rfl rfl 1 (by decide)

/-- C10: In every store state reachable from the fresh store by any sequence
of API operations (only commits change the store), `active_version` is
strictly below `next_version` and every version recorded in any per-key
history is at most `active_version`; the snapshot handed out by `begin` is
exactly `active_version`, hence covers exactly the fully committed data. -/
theorem reachable_store_invariant (s : KVStore) (h : ReachableStore s) :
    s.active_version < s.next_version
    ∧ (∀ k hist, lookupKey k s.data = some hist →
        ∀ p ∈ hist, p.1 ≤ s.active_version)
    ∧ (s.begin).snapshot_version = s.active_version := by
  rcases storeWF_reachable h with ⟨hlt, hh⟩
  exact ⟨hlt, fun k hist hk p hp => (hh k hist hk).2 p hp, rfl⟩

/-- C10 witness: the invariant holds at the store reached by one commit on
the fresh store. -/
theorem reachable_store_invariant_witness :
    ((Transaction.commit ⟨0, [("a", some "x")], false⟩ KVStore.new).2).active_version
      < ((Transaction.commit ⟨0, [("a", some "x")], false⟩ KVStore.new).2).next_version :=
  (reachable_store_invariant _
    (ReachableStore.commit ⟨0, [("a", some "x")], false⟩ ReachableStore.new)).1

end KVS
